import Mathlib

/-!
Shallow embedding of the PMX export pipeline of `mmd_tools/core/pmx/exporter.py`
(class `__PmxExporter`), restricted to the parts the verified claims are about:

* bone-table construction (`__exportBones`, lines 343-458);
* skin-weight encoding (`__exportMeshes`, lines 177-221);
* vertex splitting (`__convertFaceUVToVertexUV`, lines 944-1012);
* IK link angle limits (`__exportIKLinks`, lines 460-509) and the IK
  loop count (`__exportIK`, line 558);
* UV-morph offsets (`__export_uv_morphs`, line 778);
* group-morph reference resolution (`__export_group_morphs`, lines 784-804);
* texture registration (`__exportTexture`, lines 232-246).

Machine floats are embedded as exact rationals; Euclidean-norm threshold
tests `‖a - b‖ < c` are embedded as the equivalent squared comparison
`‖a - b‖² < c²` so that every predicate stays decidable over `ℚ`.
Python's stable `sorted` is embedded as `List.insertionSort`, which places
an element before all later tied elements and is therefore the same stable
sort.  External collaborators (Blender matrices, `math.pi`,
`os.path.normcase` / `abspath`, `os.path.isfile`, the angle conversion
`convertIKLimitAngles` living in the importer) enter as parameters.
-/

/-! ## Small vector algebra over ℚ (mathutils.Vector) -/

abbrev Vec2 : Type := ℚ × ℚ

abbrev Vec3 : Type := ℚ × ℚ × ℚ

abbrev Vec4 : Type := ℚ × ℚ × ℚ × ℚ

def v3add (a b : Vec3) : Vec3 := (a.1 + b.1, a.2.1 + b.2.1, a.2.2 + b.2.2)

def v3sub (a b : Vec3) : Vec3 := (a.1 - b.1, a.2.1 - b.2.1, a.2.2 - b.2.2)

def v3smul (s : ℚ) (a : Vec3) : Vec3 := (s * a.1, s * a.2.1, s * a.2.2)

def dot3 (a b : Vec3) : ℚ := a.1 * b.1 + a.2.1 * b.2.1 + a.2.2 * b.2.2

/-- Squared Euclidean distance of two 2-vectors (`(a - b).length ** 2`). -/
def sqDist2 (a b : Vec2) : ℚ := (a.1 - b.1) ^ 2 + (a.2 - b.2) ^ 2

/-- Squared Euclidean distance of two 3-vectors. -/
def sqDist3 (a b : Vec3) : ℚ :=
  (a.1 - b.1) ^ 2 + (a.2.1 - b.2.1) ^ 2 + (a.2.2 - b.2.2) ^ 2

/-- Squared Euclidean norm of a 3-vector. -/
def sqNorm3 (a : Vec3) : ℚ := a.1 ^ 2 + a.2.1 ^ 2 + a.2.2 ^ 2

/-- Row-major 3x3 matrix: the linear part of an object's `matrix_world`. -/
structure Mat3 where
  row0 : Vec3
  row1 : Vec3
  row2 : Vec3

def Mat3.mulVec (m : Mat3) (v : Vec3) : Vec3 :=
  (dot3 m.row0 v, dot3 m.row1 v, dot3 m.row2 v)

/-- Swap of the Y and Z components, i.e. the effect of the row swap
`pmx_matrix[1], pmx_matrix[2] = pmx_matrix[2].copy(), pmx_matrix[1].copy()`
on the result of applying the matrix (exporter.py line 362). -/
def swapYZ (v : Vec3) : Vec3 := (v.1, v.2.2, v.2.1)

/-- Embedding of `__to_pmx_location` (exporter.py lines 360-365):
`pmx_matrix = world_mat * scale` with rows 1 and 2 swapped, applied to a
3-vector (mathutils adds the translation column).  `w`/`t` are the linear
part and translation of the armature's `matrix_world`, `s` the export
scale. -/
def toPmxLocation (w : Mat3) (t : Vec3) (s : ℚ) (v : Vec3) : Vec3 :=
  swapYZ (v3smul s (v3add (w.mulVec v) t))

/-! ## Bone table (`__exportBones`, exporter.py lines 343-458) -/

/-- Input slice of a Blender pose bone as read by `__exportBones`. -/
structure BBone where
  name : String
  nameJ : String
  nameE : String
  isShadow : Bool
  boneId : ℤ
  head : Vec3
deriving DecidableEq

/-- Sort key of line 358: `x.mmd_bone.bone_id if x.mmd_bone.bone_id >= 0
else float("inf")`. -/
def boneKey (b : BBone) : WithTop ℤ :=
  if 0 ≤ b.boneId then (b.boneId : WithTop ℤ) else ⊤

def boneLe (a b : BBone) : Prop := boneKey a ≤ boneKey b

instance : DecidableRel boneLe :=
  fun a b => inferInstanceAs (Decidable (boneKey a ≤ boneKey b))

instance : IsTotal BBone boneLe := ⟨fun a b => le_total (boneKey a) (boneKey b)⟩

instance : IsTrans BBone boneLe := ⟨fun _ _ _ h1 h2 => le_trans h1 h2⟩

/-- Bones in export order: the stable sort of line 358 followed by the
shadow-bone exclusion of line 375 (`if p_bone.is_mmd_shadow_bone: continue`). -/
def exportBonesOrder (bones : List BBone) : List BBone :=
  (List.insertionSort boneLe bones).filter (fun b => !b.isShadow)

/-- Slice of `pmx.Bone` relevant to the claims.  `displayConnection` keeps
only the offset-vector form used by the synthesized root bone; the
bone-index forms and the remaining fields play no role in the claims. -/
structure PmxBone where
  name : String
  nameE : String
  location : Vec3
  displayConnection : Option Vec3
deriving DecidableEq

/-- Per-bone record construction of lines 379-398 (name fallback
`mmd_bone.name_j or bone.name` and exported head location). -/
def mkPmxBone (w : Mat3) (t : Vec3) (s : ℚ) (b : BBone) : PmxBone :=
  { name := if b.nameJ = "" then b.name else b.nameJ
    nameE := b.nameE
    location := toPmxLocation w t s b.head
    displayConnection := none }

/-- The placeholder root bone appended by lines 446-454 when no bone was
exported ("avoid crashing MMD"). -/
def defaultRootBone (w : Mat3) (t : Vec3) (s : ℚ) : PmxBone :=
  { name := "全ての親"
    nameE := "Root"
    location := toPmxLocation w t s (0, 0, 0)
    displayConnection :=
      some (v3sub (toPmxLocation w t s (0, 0, 1)) (toPmxLocation w t s (0, 0, 0))) }

/-- Embedding of the bone-table part of `__exportBones`: sort, exclude
shadow bones, build the records, and synthesize the placeholder root when
the table came out empty (lines 446-454). -/
def exportBones (w : Mat3) (t : Vec3) (s : ℚ) (bones : List BBone) : List PmxBone :=
  let main := (exportBonesOrder bones).map (mkPmxBone w t s)
  if main.isEmpty then [defaultRootBone w t s] else main

/-! ## Skin-weight encoding (`__exportMeshes`, exporter.py lines 177-221) -/

/-- Descending stable sort relation used by `v.groups.sort(key=lambda x: -x[1])`
(line 212): a group comes first when its weight is at least the other's, and
Python's sort keeps tied entries in input order, which is exactly what
`List.insertionSort` does with this relation. -/
def weightGe (a b : ℕ × ℚ) : Prop := b.2 ≤ a.2

instance : DecidableRel weightGe :=
  fun a b => inferInstanceAs (Decidable (b.2 ≤ a.2))

instance : IsTotal (ℕ × ℚ) weightGe := ⟨fun a b => le_total b.2 a.2⟩

instance : IsTrans (ℕ × ℚ) weightGe := ⟨fun _ _ _ h1 h2 => le_trans h2 h1⟩

def isortDescWeight (groups : List (ℕ × ℚ)) : List (ℕ × ℚ) :=
  List.insertionSort weightGe groups

/-- The four weight representations of `pmx.BoneWeight`.  BDEF1 carries one
fully weighted bone; BDEF2 and SDEF carry two bones and the stored weight of
the first (the second bone's weight is the complement by format convention);
SDEF additionally carries the correction triple (c, r0, r1); BDEF4 carries
four bone slots and four stored weights. -/
inductive PmxWeight where
  | bdef1 (bone : ℕ)
  | bdef2 (bones : List ℕ) (weight : ℚ)
  | bdef4 (bones : List ℕ) (weights : List ℚ)
  | sdef (bones : List ℕ) (weight : ℚ) (c r0 r1 : Vec3)
deriving DecidableEq

/-- Embedding of the weight-encoding dispatch of lines 177-220:

* 0 influences: BDEF1 on the root bone 0;
* 1 influence: BDEF1 on that bone;
* 2 influences: BDEF2 with weight `w1 / (w1 + w2)`; when SDEF data is
  present the encoding switches to SDEF, and when `bones[0] > bones[1]`
  the bone pair is reversed and the weight replaced by its complement
  (lines 195-203; note the source leaves r0 and r1 untouched);
* otherwise BDEF4: with more than 4 influences the groups are first
  stable-sorted by descending weight (line 212), the first 4 are kept,
  and every slot is divided by the sum of the kept weights
  (lines 213-219); missing slots stay bone 0 / weight 0.  -/
def encodeBoneWeight (groups : List (ℕ × ℚ))
    (sdefData : Option (Vec3 × Vec3 × Vec3)) : PmxWeight :=
  match groups with
  | [] => .bdef1 0
  | [g] => .bdef1 g.1
  | [g1, g2] =>
    let w := g1.2 / (g1.2 + g2.2)
    match sdefData with
    | none => .bdef2 [g1.1, g2.1] w
    | some (c, r0, r1) =>
      if g2.1 < g1.1 then .sdef [g2.1, g1.1] (1 - w) c r0 r1
      else .sdef [g1.1, g2.1] w c r0 r1
  | _ =>
    let sorted := if 4 < groups.length then isortDescWeight groups else groups
    let kept := sorted.take 4
    let wAll := (kept.map Prod.snd).sum
    .bdef4 (kept.map Prod.fst ++ List.replicate (4 - kept.length) 0)
      (kept.map (fun g => g.2 / wAll) ++ List.replicate (4 - kept.length) 0)

/-- Total deformation weight represented by an encoding: the sum of the
stored weights plus, for the two-bone encodings, the implicit complement
weight of the second bone. -/
def pmxWeightSum : PmxWeight → ℚ
  | .bdef1 _ => 1
  | .bdef2 _ w => w + (1 - w)
  | .sdef _ w _ _ _ => w + (1 - w)
  | .bdef4 _ ws => ws.sum

/-! ## Vertex splitting (`__convertFaceUVToVertexUV`, exporter.py lines 944-1012) -/

/-- Color channel pair stored in `add_uvs[1]` (ADD UV2). -/
abbrev ColorUV : Type := (ℚ × ℚ) × (ℚ × ℚ)

/-- Per-object state of one `_Vertex` in splitting mode: `base` stands for
the base attributes a clone copies wholesale; `uv` and `normal` are plain
attributes, rebound per object by the assignments of lines 997-998 and
1008-1009, so every vertex carries its own.  The color channel
`add_uvs[1]` is deliberately NOT a per-vertex field: `copy.copy(vertices[0])`
(line 1006) shares the `add_uvs` list object between the clone,
`vertices[0]` and every earlier clone, and `_ensure_add_uvs` never replaces
it, so the whole per-source-vertex list sees one shared color cell - see
`SplitState`. -/
structure SVert where
  base : ℕ
  uv : Option Vec2
  normal : Option Vec3
deriving DecidableEq

/-- Embedding of `_color_to_uv` (lines 958-962): a zero color vector (which
is also what an absent vertex color normalizes to, line 949) maps to `None`,
anything else to the ((x, y), (z, w)) channel pair.  The source guard is
`color_vector.length > 0`, equivalent to the vector being nonzero. -/
def colorToUV (c : Vec4) : Option ColorUV :=
  if c = ((0 : ℚ), (0 : ℚ), (0 : ℚ), (0 : ℚ)) then none
  else some ((c.1, c.2.1), (c.2.2.1, c.2.2.2))

/-- Embedding of `_color_diff` (lines 964-987): 0 when both colors are
absent, 1 (forcing a split) when exactly one is absent, otherwise the
maximum componentwise absolute difference. -/
def colorDiff : Option ColorUV → Option ColorUV → ℚ
  | none, none => 0
  | none, some _ => 1
  | some _, none => 1
  | some a, some b =>
    max (max |a.1.1 - b.1.1| |a.1.2 - b.1.2|) (max |a.2.1 - b.2.1| |a.2.2 - b.2.2|)

/-- Splitting-mode state for one source vertex: the vertex list together
with the single shared `add_uvs[1]` cell.  `vertices[0]` gets its `add_uvs`
list from the `_Vertex` constructor (line 39) and every clone shares that
same list object through the shallow copy, so the item assignments
`i.add_uvs[1] = current_color_uv` (line 999) and
`n.add_uvs[1] = current_color_uv` (line 1010) overwrite the color seen
through EVERY vertex of the list at once (contrast `__convertAddUV`,
lines 1076-1079, which copies the list before mutating). -/
structure SplitState where
  verts : List SVert
  sharedColor : Option ColorUV
deriving DecidableEq

/-- Reuse test of line 1001:
`(i.uv - uv).length < 0.001 and (normal - i.normal).length < 0.01 and
_color_diff(i, current_color_uv) < 0.01`, in the equivalent squared form
for the two norms.  `_color_diff(i, ...)` reads `i.add_uvs[1]`, which is
the shared cell `shc` - the same value for every vertex of the list.  The
test only applies to an already initialized vertex. -/
def vertCompat (v : SVert) (shc : Option ColorUV) (uv : Vec2) (nrm : Vec3)
    (cuv : Option ColorUV) : Bool :=
  match v.uv, v.normal with
  | some u, some n =>
    decide (sqDist2 u uv < 1 / 1000000) && decide (sqDist3 n nrm < 1 / 10000)
      && decide (colorDiff shc cuv < 1 / 100)
  | _, _ => false

/-- The scan of lines 993-1003 over the vertices already created for this
source vertex: the first uninitialized vertex is initialized in place -
which also writes the new color into the shared cell (line 999) - and
returned; otherwise the first compatible vertex is returned with the state
untouched; `none` when the scan falls through.  Returns (updated vertex
list, updated shared color, chosen vertex). -/
def splitScan (shc : Option ColorUV) (uv : Vec2) (nrm : Vec3)
    (cuv : Option ColorUV) :
    List SVert → Option (List SVert × Option ColorUV × SVert)
  | [] => none
  | v :: rest =>
    if v.uv = none then
      some ({ v with uv := some uv, normal := some nrm } :: rest, cuv,
        { v with uv := some uv, normal := some nrm })
    else if vertCompat v shc uv nrm cuv then some (v :: rest, shc, v)
    else
      match splitScan shc uv nrm cuv rest with
      | some (l, sc, c) => some (v :: l, sc, c)
      | none => none

/-- Embedding of the splitting branch of `__convertFaceUVToVertexUV`
(lines 992-1012): scan, and on fall-through clone `vertices[0]`, assign
the new UV / normal to the clone and write the new color into the shared
cell (line 1010) - which, through the aliased `add_uvs`, is also the color
every existing vertex of the list now exposes - then append the clone.
The source asserts the vertex list nonempty (line 946); the `[]` case
below is the unreachable filler for totality. -/
def convertFaceUVSplit (st : SplitState) (uv : Vec2) (nrm : Vec3)
    (cuv : Option ColorUV) : SplitState × SVert :=
  match splitScan st.sharedColor uv nrm cuv st.verts with
  | some (l, sc, c) => ({ verts := l, sharedColor := sc }, c)
  | none =>
    match st.verts with
    | [] => ({ verts := [], sharedColor := cuv },
        { base := 0, uv := some uv, normal := some nrm })
    | v0 :: _ =>
      ({ verts := st.verts ++ [{ v0 with uv := some uv, normal := some nrm }],
         sharedColor := cuv },
        { v0 with uv := some uv, normal := some nrm })

/-- One face corner as fed to `__convertFaceUVToVertexUV` (UV, normal and
the normalized color vector; an absent color is the zero vector). -/
structure Corner where
  uv : Vec2
  normal : Vec3
  color : Vec4
deriving DecidableEq

/-- State for a fresh source vertex (`base_vertices[v.index] = [_Vertex(...)]`,
lines 1196-1207, with the constructor of lines 27-39): one vertex with no
UV or normal assigned yet and an empty shared color cell
(`add_uvs = [None] * 4`). -/
def freshSplitState (b : ℕ) : SplitState :=
  { verts := [{ base := b, uv := none, normal := none }], sharedColor := none }

/-- Folding the splitting conversion over a sequence of corners of one
source vertex. -/
def processCorners (st : SplitState) : List Corner → SplitState
  | [] => st
  | c :: rest =>
    processCorners (convertFaceUVSplit st c.uv c.normal (colorToUV c.color)).1 rest

/-! ## IK links (`__exportIKLinks`, exporter.py lines 460-509) -/

/-- Per-axis slice of a `LIMIT_ROTATION` constraint
(`use_limit_x/min_x/max_x` and friends). -/
structure AxisSpec where
  useLimit : Bool
  minA : ℚ
  maxA : ℚ
deriving DecidableEq

/-- The `ik_angle_limits` export option (line 1461 default `EXPORT_ALL`). -/
inductive IKExportOption where
  | ignoreAll
  | overrideControlled
  | exportAll
deriving DecidableEq

/-- Per-axis pose-bone data read by the loop of lines 479-500:
`lock_ik_*`, `use_ik_limit_*` and the native `ik_min_*` / `ik_max_*`. -/
structure IKAxisBone where
  lockIK : Bool
  useIKLimit : Bool
  ikMin : ℚ
  ikMax : ℚ
deriving DecidableEq

/-- One axis of the limit computation (lines 479-500), with the priority
chain: custom limit constraint (used exclusively when present), per-axis IK
lock, active override constraint, override-present suppression under
`OVERRIDE_CONTROLLED`, native IK limit, otherwise unconstrained.  `piv` is
the rational embedding of the float constant `math.pi` (the default filler
for an unconstrained axis, line 470).  Returns the (min, max) pair and
whether the axis ended up constrained. -/
def ikAxisLimit (opt : IKExportOption) (custom override : Option AxisSpec)
    (bone : IKAxisBone) (piv : ℚ) : (ℚ × ℚ) × Bool :=
  match custom with
  | some cs => if cs.useLimit then ((cs.minA, cs.maxA), true) else ((-piv, piv), false)
  | none =>
    if bone.lockIK then ((0, 0), true)
    else
      match override with
      | some ov =>
        if ov.useLimit then ((ov.minA, ov.maxA), true)
        else if opt = IKExportOption.overrideControlled then ((-piv, piv), false)
        else if bone.useIKLimit then ((bone.ikMin, bone.ikMax), true)
        else ((-piv, piv), false)
      | none =>
        if bone.useIKLimit then ((bone.ikMin, bone.ikMax), true)
        else ((-piv, piv), false)

/-- The three-axis limit computation of lines 470-500: under `IGNORE_ALL`
all three axes are unconstrained (`unused_counts = 3`); otherwise each axis
goes through `ikAxisLimit`.  Returns the minimum vector, the maximum vector
and `unused_counts`, the number of axes that ended up unconstrained. -/
def computeIKLimits (opt : IKExportOption)
    (custom override : Option (AxisSpec × AxisSpec × AxisSpec))
    (ax ay az : IKAxisBone) (piv : ℚ) : Vec3 × Vec3 × ℕ :=
  if opt = IKExportOption.ignoreAll then
    ((-piv, -piv, -piv), (piv, piv, piv), 3)
  else
    let rx := ikAxisLimit opt (custom.map (fun c => c.1)) (override.map (fun c => c.1)) ax piv
    let ry := ikAxisLimit opt (custom.map (fun c => c.2.1)) (override.map (fun c => c.2.1)) ay piv
    let rz := ikAxisLimit opt (custom.map (fun c => c.2.2)) (override.map (fun c => c.2.2)) az piv
    ((rx.1.1, ry.1.1, rz.1.1), (rx.1.2, ry.1.2, rz.1.2),
      (if rx.2 then 0 else 1) + (if ry.2 then 0 else 1) + (if rz.2 then 0 else 1))

/-- Slice of `pmx.IKLink`: the converted angle limits are only present when
the conversion of lines 502-507 ran. -/
structure PmxIKLink where
  target : ℕ
  minimumAngle : Option Vec3
  maximumAngle : Option Vec3
deriving DecidableEq

/-- Embedding of the limit part of one IK link (lines 470-507): compute the
per-axis limits, and exactly when `unused_counts < 3` convert them through
`convertIKLimitAngles(minimum, maximum, bone_matrix, invert=True)` and store
them on the link.  The conversion function itself lives in the importer
module (`pmx.importer.PMXImporter.convertIKLimitAngles`, not part of the
exporter) and enters as the parameter `convert`, already specialized to the
bone's world matrix. -/
def exportIKLinkLimits (convert : Vec3 → Vec3 → Vec3 × Vec3)
    (opt : IKExportOption) (custom override : Option (AxisSpec × AxisSpec × AxisSpec))
    (ax ay az : IKAxisBone) (piv : ℚ) (target : ℕ) : PmxIKLink :=
  let r := computeIKLimits opt custom override ax ay az piv
  if r.2.2 < 3 then
    { target := target
      minimumAngle := some (convert r.1 r.2.1).1
      maximumAngle := some (convert r.1 r.2.1).2 }
  else
    { target := target, minimumAngle := none, maximumAngle := none }

/-- Number of axes that ended up constrained (3 minus `unused_counts`). -/
def constrainedAxes (opt : IKExportOption)
    (custom override : Option (AxisSpec × AxisSpec × AxisSpec))
    (ax ay az : IKAxisBone) (piv : ℚ) : ℕ :=
  3 - (computeIKLimits opt custom override ax ay az piv).2.2

/-- Embedding of `pmx_ik_bone.loopCount = max(int(c.iterations / ik_loop_factor), 1)`
(exporter.py line 558); `int(...)` truncation of a nonnegative quotient is
floor division. -/
def ikLoopCount (iterations factor : ℕ) : ℕ :=
  max (iterations / factor) 1

/-! ## UV morph offsets (`__export_uv_morphs`, exporter.py lines 752-782) -/

/-- Componentwise scale of a 4-component offset. -/
def q4smul (s : ℚ) (o : Vec4) : Vec4 :=
  (s * o.1, s * o.2.1, s * o.2.2.1, s * o.2.2.2)

/-- Negation of the second and fourth components (the V sub-channels of the
UV and ZW pairs). -/
def negYW (o : Vec4) : Vec4 := (o.1, -o.2.1, o.2.2.1, -o.2.2.2)

/-- Embedding of the emitted offset of line 778:
`(offset[0] * scale, -offset[1] * scale, offset[2] * scale, -offset[3] * scale)`. -/
def uvMorphOffsetEmit (offset : Vec4) (scale : ℚ) : Vec4 :=
  (offset.1 * scale, -offset.2.1 * scale, offset.2.2.1 * scale, -offset.2.2.2 * scale)

/-! ## Group morphs (`__export_group_morphs`, exporter.py lines 784-804) -/

/-- One entry of a group morph's `data`: the referenced morph kind and name,
and the weight factor. -/
structure GroupMorphRef where
  morphType : String
  refName : String
  factor : ℚ

/-- Embedding of `morph_map.get((data.morph_type, data.name), -1)`
(line 797) over the association list built by `__get_pmx_morph_map`. -/
def resolveRef (morphMap : List ((String × String) × ℕ)) (d : GroupMorphRef) : ℤ :=
  match morphMap.lookup (d.morphType, d.refName) with
  | some i => (i : ℤ)
  | none => -1

/-- Embedding of the offset loop of lines 796-804: a resolvable reference
appends one `GroupMorphOffset` (morph index, factor); an unresolvable one
(`morph_index < 0`) logs one diagnostic and is skipped.  Returns the offset
list and the diagnostic count; the loop never raises, so the export run
continues past it. -/
def exportGroupMorphOffsets (morphMap : List ((String × String) × ℕ)) :
    List GroupMorphRef → List (ℤ × ℚ) × ℕ
  | [] => ([], 0)
  | d :: rest =>
    let r := exportGroupMorphOffsets morphMap rest
    if 0 ≤ resolveRef morphMap d then ((resolveRef morphMap d, d.factor) :: r.1, r.2)
    else (r.1, r.2 + 1)

/-! ## Texture registration (`__exportTexture`, exporter.py lines 232-246) -/

/-- The per-run texture table (paths of `self.__model.textures`) together
with the count of "file does not exist" warnings the run has logged. -/
structure TexState where
  textures : List String
  warnings : ℕ
deriving DecidableEq

/-- Embedding of the guard `filepath.strip() == ""` (line 233): a string
strips to empty exactly when every character is whitespace. -/
def isBlankStr (s : String) : Bool := s.toList.all Char.isWhitespace

/-- First index whose registered path matches the target under
`os.path.normcase` (the scan of lines 238-240). -/
def findNormIdx (nc : String → String) (target : String) : List String → Option ℕ
  | [] => none
  | p :: rest =>
    if nc p = target then some 0
    else (findNormIdx nc target rest).map (fun i => i + 1)

/-- Embedding of `__exportTexture`: a blank (whitespace-only) path returns
-1 untouched; otherwise the path is made absolute (`ab` embeds the
composition of `bpy.path.abspath` and `os.path.abspath`), the table is
scanned case-insensitively (`nc` embeds `os.path.normcase`), a hit returns
its index, and a miss appends the new path - logging a warning, but nothing
else, when the file is missing on disk (`isf` embeds `os.path.isfile`) -
and returns the new last index. -/
def exportTexture (nc ab : String → String) (isf : String → Bool)
    (st : TexState) (filepath : String) : TexState × ℤ :=
  if isBlankStr filepath then (st, -1)
  else
    let fp := ab filepath
    match findNormIdx nc (nc fp) st.textures with
    | some i => (st, (i : ℤ))
    | none =>
      ({ textures := st.textures ++ [fp],
         warnings := st.warnings + (if isf fp then 0 else 1) },
        (st.textures.length : ℤ))

/-! ## Helper lemmas -/

theorem list_sum_div (l : List ℚ) (c : ℚ) : (l.map (fun x => x / c)).sum = l.sum / c := by
  induction l with
  | nil => simp
  | cons x xs ih => simp [ih, add_div]

theorem findNormIdx_eq_none (nc : String → String) (target : String) :
    ∀ l : List String, findNormIdx nc target l = none ↔ ∀ t ∈ l, nc t ≠ target := by
  intro l
  induction l with
  | nil => simp [findNormIdx]
  | cons p rest ih =>
    by_cases hp : nc p = target
    · simp [findNormIdx, hp]
    · simp [findNormIdx, hp, ih]

theorem findNormIdx_append_last (nc : String → String) (target x : String)
    (hx : nc x = target) :
    ∀ l : List String, findNormIdx nc target l = none →
      findNormIdx nc target (l ++ [x]) = some l.length := by
  intro l
  induction l with
  | nil => intro _; simp [findNormIdx, hx]
  | cons p rest ih =>
    intro h
    by_cases hp : nc p = target
    · simp [findNormIdx, hp] at h
    · simp only [findNormIdx, hp, if_false, List.cons_append] at h ⊢
      rcases hr : findNormIdx nc target rest with _ | i
      · simp only [List.append_eq, ih hr, Option.map_some]
        simp
      · simp [hr] at h

theorem filter_key_orderedInsert (p : BBone → Bool) (v : WithTop ℤ)
    (hp : ∀ b, p b = true → boneKey b = v) (x : BBone) :
    ∀ l : List BBone, (List.orderedInsert boneLe x l).filter p
      = if p x then x :: l.filter p else l.filter p := by
  intro l
  induction l with
  | nil => by_cases hx : p x <;> simp [List.orderedInsert, hx]
  | cons y ys ih =>
    by_cases hxy : boneLe x y
    · by_cases hx : p x <;> simp [List.orderedInsert, hxy, List.filter_cons, hx]
    · have hlt : boneKey y < boneKey x := not_le.mp hxy
      by_cases hx : p x
      · have hyf : p y = false := by
          rcases hy : p y with _ | _
          · rfl
          · have h1 : boneKey y = v := hp y hy
            have h2 : boneKey x = v := hp x hx
            rw [h1, h2] at hlt
            exact absurd hlt (lt_irrefl v)
        simp [List.orderedInsert, hxy, List.filter_cons, hyf, hx, ih]
      · simp [List.orderedInsert, hxy, List.filter_cons, hx, ih]

theorem filter_key_insertionSort (p : BBone → Bool) (v : WithTop ℤ)
    (hp : ∀ b, p b = true → boneKey b = v) :
    ∀ l : List BBone, (List.insertionSort boneLe l).filter p = l.filter p := by
  intro l
  induction l with
  | nil => rfl
  | cons x xs ih =>
    by_cases hx : p x <;>
      simp [List.insertionSort, filter_key_orderedInsert p v hp x _, ih,
        List.filter_cons, hx]

theorem splitScan_of_compat (shc : Option ColorUV) (uv : Vec2) (nrm : Vec3)
    (cuv : Option ColorUV) :
    ∀ l : List SVert, (∀ v ∈ l, v.uv ≠ none) →
      (∃ v ∈ l, vertCompat v shc uv nrm cuv = true) →
      ∃ c, splitScan shc uv nrm cuv l = some (l, shc, c) ∧ c ∈ l
        ∧ vertCompat c shc uv nrm cuv = true := by
  intro l
  induction l with
  | nil => intro _ hex; simp at hex
  | cons v rest ih =>
    intro hall hex
    have hvuv : v.uv ≠ none := hall v (List.mem_cons_self v rest)
    by_cases hc : vertCompat v shc uv nrm cuv = true
    · exact ⟨v, by simp [splitScan, hvuv, hc], List.mem_cons_self v rest, hc⟩
    · have hex2 : ∃ x ∈ rest, vertCompat x shc uv nrm cuv = true := by
        rcases hex with ⟨x, hx, hcx⟩
        rcases List.mem_cons.mp hx with rfl | hxr
        · exact absurd hcx hc
        · exact ⟨x, hxr, hcx⟩
      rcases ih (fun x hx => hall x (List.mem_cons_of_mem v hx)) hex2 with
        ⟨c, hscan, hmem, hcomp⟩
      refine ⟨c, ?_, List.mem_cons_of_mem v hmem, hcomp⟩
      simp [splitScan, hvuv, hc, hscan]

theorem splitScan_of_none (shc : Option ColorUV) (uv : Vec2) (nrm : Vec3)
    (cuv : Option ColorUV) :
    ∀ l : List SVert, (∀ v ∈ l, v.uv ≠ none) →
      (∀ v ∈ l, vertCompat v shc uv nrm cuv = false) →
      splitScan shc uv nrm cuv l = none := by
  intro l
  induction l with
  | nil => intro _ _; rfl
  | cons v rest ih =>
    intro hall hnone
    have hvuv : v.uv ≠ none := hall v (List.mem_cons_self v rest)
    have hvc : vertCompat v shc uv nrm cuv = false :=
      hnone v (List.mem_cons_self v rest)
    have hrest : splitScan shc uv nrm cuv rest = none :=
      ih (fun x hx => hall x (List.mem_cons_of_mem v hx))
        (fun x hx => hnone x (List.mem_cons_of_mem v hx))
    simp [splitScan, hvuv, hvc, hrest]

theorem vertCompat_self (b : ℕ) (uv : Vec2) (nrm : Vec3) (cuv : Option ColorUV) :
    vertCompat { base := b, uv := some uv, normal := some nrm } cuv uv nrm cuv
      = true := by
  have hcd : colorDiff cuv cuv = 0 := by
    cases cuv with
    | none => rfl
    | some a => simp [colorDiff, sub_self, abs_zero]
  simp only [vertCompat, Bool.and_eq_true, decide_eq_true_eq]
  refine ⟨⟨?_, ?_⟩, ?_⟩
  · simp [sqDist2, sub_self]
  · simp [sqDist3, sub_self]
  · rw [hcd]
    norm_num

theorem convertFaceUVSplit_initialized_self (b : ℕ) (uv : Vec2) (nrm : Vec3)
    (cuv : Option ColorUV) :
    convertFaceUVSplit
        { verts := [{ base := b, uv := some uv, normal := some nrm }],
          sharedColor := cuv } uv nrm cuv
      = ({ verts := [{ base := b, uv := some uv, normal := some nrm }],
           sharedColor := cuv },
         { base := b, uv := some uv, normal := some nrm }) := by
  simp [convertFaceUVSplit, splitScan, vertCompat_self]

theorem processCorners_initialized_same (c : Corner) (b : ℕ) :
    ∀ k : ℕ, processCorners
        { verts := [{ base := b, uv := some c.uv, normal := some c.normal }],
          sharedColor := colorToUV c.color } (List.replicate k c)
      = { verts := [{ base := b, uv := some c.uv, normal := some c.normal }],
          sharedColor := colorToUV c.color } := by
  intro k
  induction k with
  | zero => rfl
  | succ k ih =>
    rw [List.replicate_succ]
    show processCorners
        (convertFaceUVSplit _ c.uv c.normal (colorToUV c.color)).1
        (List.replicate k c) = _
    rw [convertFaceUVSplit_initialized_self]
    exact ih

theorem exportBonesOrder_eq_nil (bones : List BBone)
    (h : bones.filter (fun b => !b.isShadow) = []) : exportBonesOrder bones = [] := by
  have hp : List.Perm ((List.insertionSort boneLe bones).filter (fun b => !b.isShadow))
      (bones.filter (fun b => !b.isShadow)) :=
    (List.perm_insertionSort boneLe bones).filter _
  rw [h] at hp
  exact List.Perm.eq_nil hp

theorem computeIKLimits_unused_le_three (opt : IKExportOption)
    (custom override : Option (AxisSpec × AxisSpec × AxisSpec))
    (ax ay az : IKAxisBone) (piv : ℚ) :
    (computeIKLimits opt custom override ax ay az piv).2.2 ≤ 3 := by
  unfold computeIKLimits
  split
  · simp
  · simp only []
    split <;> split <;> split <;> simp

/-! ## Claim theorems -/

/-- C1: the bone export never produces an empty bone table.  For every
world matrix, translation, scale and input bone set, the output has length
at least 1; when excluding shadow bones leaves nothing, the output is
exactly the single placeholder root bone, named "全ての親" / "Root", located
at the transform of the origin, whose display connection is the image of
the unit-length default axis (0, 0, 1) under the export transform. -/
theorem bone_table_never_empty (w : Mat3) (t : Vec3) (s : ℚ) (bones : List BBone) :
    1 ≤ (exportBones w t s bones).length
    ∧ (bones.filter (fun b => !b.isShadow) = [] →
        exportBones w t s bones = [defaultRootBone w t s])
    ∧ (defaultRootBone w t s).name = "全ての親"
    ∧ (defaultRootBone w t s).nameE = "Root"
    ∧ (defaultRootBone w t s).location = toPmxLocation w t s (0, 0, 0)
    ∧ (defaultRootBone w t s).displayConnection
        = some (v3sub (toPmxLocation w t s (0, 0, 1)) (toPmxLocation w t s (0, 0, 0)))
    ∧ sqNorm3 (0, 0, 1) = 1 := by
  refine ⟨?_, ?_, rfl, rfl, rfl, rfl, by norm_num [sqNorm3]⟩
  · unfold exportBones
    by_cases h : ((exportBonesOrder bones).map (mkPmxBone w t s)).isEmpty
    · simp [h]
    · simp only [h, if_false]
      have hne : (exportBonesOrder bones).map (mkPmxBone w t s) ≠ [] := by
        intro hc
        rw [hc] at h
        exact h rfl
      exact Nat.one_le_iff_ne_zero.mpr (fun hl => hne (List.eq_nil_of_length_eq_zero hl))
  · intro h
    have ho : exportBonesOrder bones = [] := exportBonesOrder_eq_nil bones h
    simp [exportBones, ho]

theorem bone_table_never_empty_witness :
    exportBones ⟨(1, 0, 0), (0, 1, 0), (0, 0, 1)⟩ (0, 0, 0) 1
        [{ name := "shadow", nameJ := "", nameE := "", isShadow := true,
           boneId := 0, head := (0, 0, 0) }]
      = [defaultRootBone ⟨(1, 0, 0), (0, 1, 0), (0, 0, 1)⟩ (0, 0, 0) 1] :=
  (bone_table_never_empty _ _ _ _).2.1 (by decide)

/-- C6 (amended): the exported bone table is ordered by the bone order key
ascending with unset (negative) keys last as +infinity, shadow bones are
excluded, and ties are broken stably by the INPUT order of the bone
sequence, not by bone name: the sublist of bones with any fixed key value
is exactly the corresponding sublist of the (shadow-filtered) input. -/
theorem bone_table_order (w : Mat3) (t : Vec3) (s : ℚ) (bones : List BBone) :
    (exportBonesOrder bones).Pairwise boneLe
    ∧ List.Perm (exportBonesOrder bones) (bones.filter (fun b => !b.isShadow))
    ∧ (∀ v : WithTop ℤ,
        (exportBonesOrder bones).filter (fun b => decide (boneKey b = v))
          = (bones.filter (fun b => !b.isShadow)).filter
              (fun b => decide (boneKey b = v)))
    ∧ (exportBonesOrder bones ≠ [] →
        exportBones w t s bones = (exportBonesOrder bones).map (mkPmxBone w t s)) := by
  refine ⟨?_, (List.perm_insertionSort boneLe bones).filter _, ?_, ?_⟩
  · exact (List.sorted_insertionSort boneLe bones).filter _
  · intro v
    have hcomm : ∀ l : List BBone,
        (l.filter (fun b => !b.isShadow)).filter (fun b => decide (boneKey b = v))
          = l.filter (fun b => !b.isShadow && decide (boneKey b = v)) := by
      intro l
      rw [List.filter_filter]
      exact List.filter_congr (fun a _ => Bool.and_comm _ _)
    unfold exportBonesOrder
    rw [hcomm, hcomm]
    exact filter_key_insertionSort _ v
      (fun b hb => of_decide_eq_true (Bool.and_elim_right hb)) bones
  · intro hne
    have h2 : ((exportBonesOrder bones).map (mkPmxBone w t s)).isEmpty = false := by
      rcases he : exportBonesOrder bones with _ | ⟨x, xs⟩
      · exact absurd he hne
      · rfl
    simp [exportBones, h2]

theorem bone_table_order_witness :
    exportBones ⟨(1, 0, 0), (0, 1, 0), (0, 0, 1)⟩ (0, 0, 0) 1
        [{ name := "a", nameJ := "", nameE := "", isShadow := false,
           boneId := 0, head := (0, 0, 0) }]
      = (exportBonesOrder
          [{ name := "a", nameJ := "", nameE := "", isShadow := false,
             boneId := 0, head := (0, 0, 0) }]).map
          (mkPmxBone ⟨(1, 0, 0), (0, 1, 0), (0, 0, 1)⟩ (0, 0, 0) 1) :=
  (bone_table_order _ _ _ _).2.2.2 (by decide)

/-- C6 counterexample: two non-shadow bones with unset order keys, input
order ["b", "a"].  The claimed name tiebreak would output ["a", "b"]; the
code keeps the input order and outputs ["b", "a"]. -/
theorem bone_sort_tie_not_by_name_cex :
    (exportBonesOrder
        [{ name := "b", nameJ := "", nameE := "", isShadow := false,
           boneId := -1, head := (0, 0, 0) },
         { name := "a", nameJ := "", nameE := "", isShadow := false,
           boneId := -1, head := (0, 0, 0) }]).map BBone.name = ["b", "a"]
    ∧ (["b", "a"] : List String) ≠ ["a", "b"] := by
  refine ⟨?_, by decide⟩
  rfl

/-- C10: the emitted IK loop count is `max(floor(iterations / factor), 1)`
and is therefore never 0: a consumer is never handed an IK bone with loop
count 0. -/
theorem ik_loop_count_at_least_one (iterations factor : ℕ) (h : 0 < factor) :
    1 ≤ ikLoopCount iterations factor
    ∧ ikLoopCount iterations factor = max (iterations / factor) 1 :=
  ⟨le_max_right _ 1, rfl⟩

theorem ik_loop_count_at_least_one_witness :
    1 ≤ ikLoopCount 7 2 ∧ ikLoopCount 7 2 = max (7 / 2) 1 :=
  ik_loop_count_at_least_one 7 2 (by decide)

/-- C7 (amended): a vertex-group-sourced UV morph offset with raw
components (x, y, z, w) and per-morph scale s is emitted as
(x*s, -y*s, z*s, -w*s): the Y and W sub-channels (the V components of the
UV and ZW pairs) are negated relative to X and Z, not the Z and W ones. -/
theorem uv_morph_offset_formula (o : Vec4) (s : ℚ) :
    uvMorphOffsetEmit o s = q4smul s (negYW o) := by
  simp only [uvMorphOffsetEmit, q4smul, negYW, Prod.mk.injEq]
  exact ⟨by ring, by ring, by ring, by ring⟩

/-- C7 counterexample: at raw offset (1, 1, 1, 1) and scale 1 the code
emits (1, -1, 1, -1); the claimed Z/W negation would emit (1, 1, -1, -1). -/
theorem uv_morph_negation_cex :
    uvMorphOffsetEmit (1, 1, 1, 1) 1 = ((1 : ℚ), (-1 : ℚ), (1 : ℚ), (-1 : ℚ))
    ∧ ((1 : ℚ), (-1 : ℚ), (1 : ℚ), (-1 : ℚ))
      ≠ ((1 : ℚ), (1 : ℚ), (-1 : ℚ), (-1 : ℚ)) := by
  refine ⟨by norm_num [uvMorphOffsetEmit], by norm_num⟩

/-- C8: a group morph whose data resolves N references in the
(kind, name) to index map and fails to resolve M gets exactly N offsets
appended and logs exactly M diagnostics, and N + M accounts for every data
entry; the resolution loop is total, so the export run continues. -/
theorem group_morph_resolution_counts (morphMap : List ((String × String) × ℕ))
    (data : List GroupMorphRef) :
    (exportGroupMorphOffsets morphMap data).1.length
        = data.countP (fun d => decide (0 ≤ resolveRef morphMap d))
    ∧ (exportGroupMorphOffsets morphMap data).2
        = data.countP (fun d => decide (resolveRef morphMap d < 0))
    ∧ (exportGroupMorphOffsets morphMap data).1.length
        + (exportGroupMorphOffsets morphMap data).2 = data.length := by
  induction data with
  | nil => exact ⟨rfl, rfl, rfl⟩
  | cons d rest ih =>
    obtain ⟨ih1, ih2, ih3⟩ := ih
    by_cases hd : 0 ≤ resolveRef morphMap d
    · have hd2 : ¬ resolveRef morphMap d < 0 := not_lt.mpr hd
      refine ⟨?_, ?_, ?_⟩ <;>
        simp [exportGroupMorphOffsets, hd, hd2, List.countP_cons, ih1, ih2, ih3] <;>
        omega
    · have hd2 : resolveRef morphMap d < 0 := not_le.mp hd
      refine ⟨?_, ?_, ?_⟩ <;>
        simp [exportGroupMorphOffsets, hd, hd2, List.countP_cons, ih1, ih2, ih3] <;>
        omega

/-- C2 (amended): a 2-influence vertex with SDEF data present is encoded as
SDEF with weight w1/(w1+w2); when the bone pair is reversed to restore
ascending order the weight becomes 1 - w1/(w1+w2), the bone list is sorted
ascending either way, and the reference points r0 and r1 are carried over
UNCHANGED (the source does not swap them). -/
theorem sdef_two_bone_encoding (b1 b2 : ℕ) (w1 w2 : ℚ) (c r0 r1 : Vec3) :
    (b1 ≤ b2 →
      encodeBoneWeight [(b1, w1), (b2, w2)] (some (c, r0, r1))
        = PmxWeight.sdef [b1, b2] (w1 / (w1 + w2)) c r0 r1)
    ∧ (b2 < b1 →
      encodeBoneWeight [(b1, w1), (b2, w2)] (some (c, r0, r1))
        = PmxWeight.sdef [b2, b1] (1 - w1 / (w1 + w2)) c r0 r1)
    ∧ ∃ bs wv, encodeBoneWeight [(b1, w1), (b2, w2)] (some (c, r0, r1))
        = PmxWeight.sdef bs wv c r0 r1
        ∧ List.Sorted (fun x y : ℕ => x ≤ y) bs := by
  refine ⟨?_, ?_, ?_⟩
  · intro h
    have h2 : ¬ b2 < b1 := not_lt.mpr h
    simp [encodeBoneWeight, h2]
  · intro h
    simp [encodeBoneWeight, h]
  · by_cases h : b2 < b1
    · exact ⟨[b2, b1], 1 - w1 / (w1 + w2), by simp [encodeBoneWeight, h],
        by simp [List.sorted_cons]; exact le_of_lt h⟩
    · exact ⟨[b1, b2], w1 / (w1 + w2), by simp [encodeBoneWeight, h],
        by simp [List.sorted_cons]; exact not_lt.mp h⟩

theorem sdef_two_bone_encoding_witness :
    encodeBoneWeight [(1, (1 : ℚ)), (0, 3)]
        (some (((0 : ℚ), (0 : ℚ), (0 : ℚ)), ((1 : ℚ), 0, 0), ((2 : ℚ), 0, 0)))
      = PmxWeight.sdef [0, 1] (1 - 1 / (1 + 3)) ((0 : ℚ), (0 : ℚ), (0 : ℚ))
          ((1 : ℚ), 0, 0) ((2 : ℚ), 0, 0) :=
  (sdef_two_bone_encoding 1 0 1 3 _ _ _).2.1 (by decide)

/-- C2 counterexample: bones (1, 0) with weights (1, 3) and SDEF triple
(c, r0, r1) = (0, (1,0,0), (2,0,0)).  The code reverses the bones and flips
the weight to 3/4 but keeps r0 = (1,0,0) and r1 = (2,0,0); the claimed
r0/r1 swap would give r0 = (2,0,0). -/
theorem sdef_reverse_keeps_r0_r1_cex :
    encodeBoneWeight [(1, (1 : ℚ)), (0, 3)]
        (some (((0 : ℚ), (0 : ℚ), (0 : ℚ)), ((1 : ℚ), 0, 0), ((2 : ℚ), 0, 0)))
      = PmxWeight.sdef [0, 1] (3 / 4) ((0 : ℚ), (0 : ℚ), (0 : ℚ))
          ((1 : ℚ), 0, 0) ((2 : ℚ), 0, 0)
    ∧ PmxWeight.sdef [0, 1] ((3 : ℚ) / 4) ((0 : ℚ), (0 : ℚ), (0 : ℚ))
          ((1 : ℚ), 0, 0) ((2 : ℚ), 0, 0)
      ≠ PmxWeight.sdef [0, 1] ((3 : ℚ) / 4) ((0 : ℚ), (0 : ℚ), (0 : ℚ))
          ((2 : ℚ), 0, 0) ((1 : ℚ), 0, 0) := by
  constructor
  · show encodeBoneWeight _ _ = _
    norm_num [encodeBoneWeight]
  · intro h
    rw [PmxWeight.sdef.injEq] at h
    norm_num at h

/-- C9: texture registration is idempotent up to case-insensitive absolute
paths: after registering p, registering any q with the same normalized
absolute form returns the same index and leaves the state unchanged; a
first registration (no matching entry yet) appends exactly one entry and
returns its index, recording only a warning when the file is missing on
disk. -/
theorem texture_registration_idempotent (nc ab : String → String)
    (isf : String → Bool) (st : TexState) (p q : String)
    (hp : isBlankStr p = false) (hq : isBlankStr q = false) (hpq : nc (ab q) = nc (ab p)) :
    exportTexture nc ab isf (exportTexture nc ab isf st p).1 q
        = exportTexture nc ab isf st p
    ∧ ((exportTexture nc ab isf st p).1.textures = st.textures
        ∨ (exportTexture nc ab isf st p).1.textures = st.textures ++ [ab p])
    ∧ ((∀ x ∈ st.textures, nc x ≠ nc (ab p)) →
        (exportTexture nc ab isf st p).1.textures = st.textures ++ [ab p]
        ∧ (exportTexture nc ab isf st p).2 = (st.textures.length : ℤ)
        ∧ (exportTexture nc ab isf st p).1.warnings
            = st.warnings + (if isf (ab p) then 0 else 1)) := by
  rcases hfind : findNormIdx nc (nc (ab p)) st.textures with _ | i
  · -- first registration appends
    have hstep : exportTexture nc ab isf st p
        = ({ textures := st.textures ++ [ab p],
             warnings := st.warnings + (if isf (ab p) then 0 else 1) },
           (st.textures.length : ℤ)) := by
      simp [exportTexture, hp, hfind]
    refine ⟨?_, ?_, ?_⟩
    · have hfind2 : findNormIdx nc (nc (ab q)) (st.textures ++ [ab p])
          = some st.textures.length := by
        rw [hpq]
        exact findNormIdx_append_last nc (nc (ab p)) (ab p) rfl st.textures hfind
      rw [hstep]
      simp [exportTexture, hq, hfind2]
    · rw [hstep]
      exact Or.inr rfl
    · intro _
      rw [hstep]
      exact ⟨rfl, rfl, rfl⟩
  · -- already registered
    have hstep : exportTexture nc ab isf st p = (st, (i : ℤ)) := by
      simp [exportTexture, hp, hfind]
    refine ⟨?_, ?_, ?_⟩
    · have hfind2 : findNormIdx nc (nc (ab q)) st.textures = some i := by
        rw [hpq]
        exact hfind
      rw [hstep]
      simp [exportTexture, hq, hfind2]
    · rw [hstep]
      exact Or.inl rfl
    · intro hnone
      have : findNormIdx nc (nc (ab p)) st.textures = none :=
        (findNormIdx_eq_none nc (nc (ab p)) st.textures).mpr hnone
      rw [this] at hfind
      exact absurd hfind (by simp)

theorem texture_registration_idempotent_witness :
    exportTexture (fun x => x) (fun x => x) (fun _ => false)
        (exportTexture (fun x => x) (fun x => x) (fun _ => false)
          { textures := [], warnings := 0 } "a").1 "a"
      = exportTexture (fun x => x) (fun x => x) (fun _ => false)
          { textures := [], warnings := 0 } "a" :=
  (texture_registration_idempotent (fun x => x) (fun x => x) (fun _ => false)
    { textures := [], warnings := 0 } "a" "a" (by decide) (by decide) rfl).1

/-- C4: in splitting mode, an existing vertex of the source vertex is
reused exactly when one is within all three thresholds - UV, normal, and
the color distance to the stored color, a single cell shared by the whole
list through the shallow-copied `add_uvs` - and reuse leaves the state
untouched; otherwise a clone of the first vertex's base attributes
carrying the new UV / normal is appended and the new color is written to
the shared cell, which is therefore also the color every pre-existing
vertex now exposes (the aliased write of line 1010).  Consequently a
sequence of identical corners of one source vertex yields exactly one
indexed vertex. -/
theorem vertex_split_dedup :
    (∀ (st : SplitState) (uv : Vec2) (nrm : Vec3) (cuv : Option ColorUV),
      (∀ v ∈ st.verts, v.uv ≠ none) →
      ((∃ v ∈ st.verts, vertCompat v st.sharedColor uv nrm cuv = true) →
        (convertFaceUVSplit st uv nrm cuv).1 = st
        ∧ (convertFaceUVSplit st uv nrm cuv).2 ∈ st.verts
        ∧ vertCompat (convertFaceUVSplit st uv nrm cuv).2 st.sharedColor
            uv nrm cuv = true)
      ∧ ((∀ v ∈ st.verts, vertCompat v st.sharedColor uv nrm cuv = false) →
        ∀ v0 rest, st.verts = v0 :: rest →
          (convertFaceUVSplit st uv nrm cuv).1.verts
            = st.verts ++ [{ v0 with uv := some uv, normal := some nrm }]
          ∧ (convertFaceUVSplit st uv nrm cuv).1.sharedColor = cuv
          ∧ (convertFaceUVSplit st uv nrm cuv).2
            = { v0 with uv := some uv, normal := some nrm }))
    ∧ (∀ (b : ℕ) (c : Corner) (k : ℕ),
        (processCorners (freshSplitState b) (List.replicate k c)).verts.length
          = 1) := by
  constructor
  · intro st uv nrm cuv hall
    obtain ⟨vl, sc⟩ := st
    constructor
    · intro hex
      rcases splitScan_of_compat sc uv nrm cuv vl hall hex with
        ⟨c, hscan, hmem, hcomp⟩
      have e : convertFaceUVSplit ⟨vl, sc⟩ uv nrm cuv = (⟨vl, sc⟩, c) := by
        unfold convertFaceUVSplit
        rw [show (⟨vl, sc⟩ : SplitState).sharedColor = sc from rfl,
          show (⟨vl, sc⟩ : SplitState).verts = vl from rfl, hscan]
      rw [e]
      exact ⟨rfl, hmem, hcomp⟩
    · intro hnone v0 rest hst
      have hst2 : vl = v0 :: rest := hst
      subst hst2
      have hscan : splitScan sc uv nrm cuv (v0 :: rest) = none :=
        splitScan_of_none sc uv nrm cuv _ hall hnone
      have e : convertFaceUVSplit ⟨v0 :: rest, sc⟩ uv nrm cuv
          = (⟨(v0 :: rest)
                ++ [{ v0 with uv := some uv, normal := some nrm }], cuv⟩,
             { v0 with uv := some uv, normal := some nrm }) := by
        unfold convertFaceUVSplit
        rw [show (⟨v0 :: rest, sc⟩ : SplitState).sharedColor = sc from rfl,
          show (⟨v0 :: rest, sc⟩ : SplitState).verts = v0 :: rest from rfl, hscan]
      rw [e]
      exact ⟨rfl, rfl, rfl⟩
  · intro b c k
    cases k with
    | zero => rfl
    | succ k =>
      rw [List.replicate_succ]
      show (processCorners
        (convertFaceUVSplit (freshSplitState b) c.uv c.normal
          (colorToUV c.color)).1
        (List.replicate k c)).verts.length = 1
      have h1 : (convertFaceUVSplit (freshSplitState b) c.uv c.normal
          (colorToUV c.color)).1
          = { verts := [{ base := b, uv := some c.uv, normal := some c.normal }],
              sharedColor := colorToUV c.color } := rfl
      rw [h1, processCorners_initialized_same]
      rfl

theorem vertex_split_dedup_witness :
    (convertFaceUVSplit
        { verts := [{ base := 0, uv := some ((0 : ℚ), (0 : ℚ)),
                      normal := some ((0 : ℚ), (0 : ℚ), (1 : ℚ)) }],
          sharedColor := none }
        ((0 : ℚ), (0 : ℚ)) ((0 : ℚ), (0 : ℚ), (1 : ℚ)) none).1
      = { verts := [{ base := 0, uv := some ((0 : ℚ), (0 : ℚ)),
                      normal := some ((0 : ℚ), (0 : ℚ), (1 : ℚ)) }],
          sharedColor := none }
    ∧ (processCorners (freshSplitState 5)
        (List.replicate 3
          { uv := ((0 : ℚ), (0 : ℚ)), normal := ((0 : ℚ), (0 : ℚ), (1 : ℚ)),
            color := ((0 : ℚ), (0 : ℚ), (0 : ℚ), (0 : ℚ)) })).verts.length
        = 1 := by
  constructor
  · exact ((vertex_split_dedup.1 _ _ _ _
      (by intro v hv; rw [List.mem_singleton.mp hv]; simp)).1
      ⟨_, List.mem_singleton.mpr rfl, vertCompat_self 0 _ _ none⟩).1
  · exact vertex_split_dedup.2 5 _ 3

/-- C5 (amended): an IK link carries converted angle limits exactly when
`unused_counts < 3`, i.e. when FEWER THAN 3 AXES ARE UNCONSTRAINED
(equivalently, at least one axis is constrained) - not when fewer than 3
axes are constrained; when every axis is unconstrained the link carries no
minimum/maximum angles. -/
theorem ik_limit_convert_condition (convert : Vec3 → Vec3 → Vec3 × Vec3)
    (opt : IKExportOption) (custom override : Option (AxisSpec × AxisSpec × AxisSpec))
    (ax ay az : IKAxisBone) (piv : ℚ) (target : ℕ) :
    ((exportIKLinkLimits convert opt custom override ax ay az piv target).minimumAngle.isSome
        ↔ (computeIKLimits opt custom override ax ay az piv).2.2 < 3)
    ∧ ((exportIKLinkLimits convert opt custom override ax ay az piv target).maximumAngle.isSome
        ↔ (computeIKLimits opt custom override ax ay az piv).2.2 < 3)
    ∧ (¬ (computeIKLimits opt custom override ax ay az piv).2.2 < 3 →
        exportIKLinkLimits convert opt custom override ax ay az piv target
          = { target := target, minimumAngle := none, maximumAngle := none })
    ∧ ((computeIKLimits opt custom override ax ay az piv).2.2 < 3
        ↔ 1 ≤ constrainedAxes opt custom override ax ay az piv) := by
  have hle : (computeIKLimits opt custom override ax ay az piv).2.2 ≤ 3 :=
    computeIKLimits_unused_le_three opt custom override ax ay az piv
  by_cases h : (computeIKLimits opt custom override ax ay az piv).2.2 < 3
  · refine ⟨?_, ?_, ?_, ?_⟩
    · simp [exportIKLinkLimits, h]
    · simp [exportIKLinkLimits, h]
    · intro hc
      exact absurd h hc
    · unfold constrainedAxes
      omega
  · refine ⟨?_, ?_, ?_, ?_⟩
    · simp [exportIKLinkLimits, h]
    · simp [exportIKLinkLimits, h]
    · intro _
      simp [exportIKLinkLimits, h]
    · unfold constrainedAxes
      omega

theorem ik_limit_convert_condition_witness :
    exportIKLinkLimits (fun a b => (a, b)) IKExportOption.ignoreAll none none
        { lockIK := false, useIKLimit := false, ikMin := 0, ikMax := 0 }
        { lockIK := false, useIKLimit := false, ikMin := 0, ikMax := 0 }
        { lockIK := false, useIKLimit := false, ikMin := 0, ikMax := 0 } 3 5
      = { target := 5, minimumAngle := none, maximumAngle := none } :=
  (ik_limit_convert_condition (fun a b => (a, b)) IKExportOption.ignoreAll none none
    _ _ _ 3 5).2.2.1 (by decide)

/-- C5 counterexample: with all three IK axes locked (every axis
constrained, so NOT fewer than 3 axes constrained) the code still converts
and stores the angle limits, contradicting the claimed condition. -/
theorem ik_limit_convert_claim_cex :
    (exportIKLinkLimits (fun a b => (a, b)) IKExportOption.exportAll none none
        { lockIK := true, useIKLimit := false, ikMin := 0, ikMax := 0 }
        { lockIK := true, useIKLimit := false, ikMin := 0, ikMax := 0 }
        { lockIK := true, useIKLimit := false, ikMin := 0, ikMax := 0 } 3 0).minimumAngle
      = some ((0 : ℚ), (0 : ℚ), (0 : ℚ))
    ∧ constrainedAxes IKExportOption.exportAll none none
        { lockIK := true, useIKLimit := false, ikMin := 0, ikMax := 0 }
        { lockIK := true, useIKLimit := false, ikMin := 0, ikMax := 0 }
        { lockIK := true, useIKLimit := false, ikMin := 0, ikMax := 0 } 3 = 3 := by
  constructor
  · rfl
  · rfl

theorem take4_weights_sum_one (S : List (ℕ × ℚ)) (h1 : S ≠ [])
    (hpos : ∀ g ∈ S, 0 < g.2) :
    ((S.take 4).map (fun g => g.2 / ((S.take 4).map Prod.snd).sum)
      ++ List.replicate (4 - (S.take 4).length) (0 : ℚ)).sum = 1 := by
  have hkne : S.take 4 ≠ [] := by
    rcases S with _ | ⟨x, xs⟩
    · exact absurd rfl h1
    · simp [List.take]
  have hkpos : ∀ x ∈ S.take 4, 0 < x.2 := fun x hx => hpos x (List.mem_of_mem_take hx)
  have hsumpos : 0 < ((S.take 4).map Prod.snd).sum := by
    apply List.sum_pos
    · intro y hy
      rcases List.mem_map.mp hy with ⟨x, hx, rfl⟩
      exact hkpos x hx
    · intro hc
      exact hkne (List.map_eq_nil_iff.mp hc)
  have hmm : (S.take 4).map (fun g => g.2 / ((S.take 4).map Prod.snd).sum)
      = ((S.take 4).map Prod.snd).map (fun x => x / ((S.take 4).map Prod.snd).sum) := by
    rw [List.map_map]
    rfl
  rw [List.sum_append, List.sum_replicate, smul_zero, add_zero, hmm,
    list_sum_div, div_self (ne_of_gt hsumpos)]

theorem encode_ge3_sum (g1 g2 g3 : ℕ × ℚ) (rest : List (ℕ × ℚ))
    (sdefData : Option (Vec3 × Vec3 × Vec3))
    (hpos : ∀ g ∈ g1 :: g2 :: g3 :: rest, 0 < g.2) :
    pmxWeightSum (encodeBoneWeight (g1 :: g2 :: g3 :: rest) sdefData) = 1 := by
  have hred : pmxWeightSum (encodeBoneWeight (g1 :: g2 :: g3 :: rest) sdefData)
      = (let S := if 4 < (g1 :: g2 :: g3 :: rest).length
            then isortDescWeight (g1 :: g2 :: g3 :: rest)
            else g1 :: g2 :: g3 :: rest
         ((S.take 4).map (fun g => g.2 / ((S.take 4).map Prod.snd).sum)
           ++ List.replicate (4 - (S.take 4).length) (0 : ℚ)).sum) := rfl
  rw [hred]
  by_cases h4 : 4 < (g1 :: g2 :: g3 :: rest).length
  · simp only [h4, if_true]
    apply take4_weights_sum_one
    · intro hc
      unfold isortDescWeight at hc
      have h0 := congrArg List.length hc
      rw [List.length_insertionSort] at h0
      simp at h0
    · intro g hg
      unfold isortDescWeight at hg
      exact hpos g ((List.mem_insertionSort weightGe).mp hg)
  · simp only [h4, if_false]
    apply take4_weights_sum_one
    · intro hc
      simp at hc
    · exact hpos

/-- C3: for at least two influences, all of positive weight, the encoded
deformation weights sum exactly to 1 (the stored two-bone weight plus its
implicit complement, or the four renormalized BDEF4 weights); with exactly
3 influences the unused fourth slot holds bone 0 / weight 0; with more than
4 influences the kept 4 are the top of the stable descending sort, so every
kept weight is at least every dropped weight. -/
theorem skin_weight_sum_one (groups : List (ℕ × ℚ))
    (sdefData : Option (Vec3 × Vec3 × Vec3))
    (h2 : 2 ≤ groups.length) (hpos : ∀ g ∈ groups, 0 < g.2) :
    pmxWeightSum (encodeBoneWeight groups sdefData) = 1
    ∧ (groups.length = 3 → ∃ b1 b2 b3 w1 w2 w3,
        encodeBoneWeight groups sdefData
          = PmxWeight.bdef4 [b1, b2, b3, 0] [w1, w2, w3, 0])
    ∧ (4 < groups.length →
        ∀ a ∈ (isortDescWeight groups).take 4,
          ∀ b ∈ (isortDescWeight groups).drop 4, b.2 ≤ a.2) := by
  refine ⟨?_, ?_, ?_⟩
  · rcases groups with _ | ⟨a, rest1⟩
    · simp at h2
    rcases rest1 with _ | ⟨b, rest2⟩
    · simp at h2
    rcases rest2 with _ | ⟨c, rest3⟩
    · rcases sdefData with _ | ⟨cc, r0v, r1v⟩
      · simp only [encodeBoneWeight, pmxWeightSum]
        ring
      · by_cases hb : b.1 < a.1
        · simp only [encodeBoneWeight, pmxWeightSum, hb, if_true]
          ring
        · simp only [encodeBoneWeight, pmxWeightSum, hb, if_false]
          ring
    · exact encode_ge3_sum a b c rest3 sdefData hpos
  · intro hlen
    rcases groups with _ | ⟨a, rest1⟩
    · simp at hlen
    rcases rest1 with _ | ⟨b, rest2⟩
    · simp at hlen
    rcases rest2 with _ | ⟨c, rest3⟩
    · simp at hlen
    rcases rest3 with _ | ⟨d, rest4⟩
    · exact ⟨a.1, b.1, c.1, _, _, _, rfl⟩
    · simp at hlen
  · intro h4
    have hs : List.Pairwise weightGe (isortDescWeight groups) :=
      List.sorted_insertionSort weightGe groups
    rw [← List.take_append_drop 4 (isortDescWeight groups)] at hs
    exact fun a ha b hb => (List.pairwise_append.mp hs).2.2 a ha b hb

theorem skin_weight_sum_one_witness :
    pmxWeightSum (encodeBoneWeight
      [(0, (1 : ℚ)), (1, 1), (2, 1), (3, 1), (4, 5)] none) = 1 :=
  (skin_weight_sum_one [(0, (1 : ℚ)), (1, 1), (2, 1), (3, 1), (4, 5)] none
    (by simp) (by norm_num)).1
